import Mathlib

set_option maxRecDepth 4000

/-!
Verification development for the TSP application of src/final.py.

The Python program keeps a weighted undirected graph in a dict-of-dicts
adjacency structure (GraphModel), converts it to a networkx graph
(get_graph) and solves the travelling-salesman problem by enumerating
all permutations of the non-start nodes (TSPSolver.calculate_tsp_route).
Python dicts are embedded as association lists that preserve insertion
order, mutation is embedded as explicit state passing, and a raised
KeyError is embedded as an error value.
-/

universe u

variable {κ : Type u} {α : Type u}

/-- Lookup in a Python-style dictionary represented as an association list:
returns the value of the first entry whose key matches, none otherwise. -/
def dictGet? [DecidableEq κ] : List (κ × α) → κ → Option α
  | [], _ => none
  | (k, v) :: rest, key => if k = key then some v else dictGet? rest key

/-- Key-membership test of a Python dictionary. -/
def dictContains [DecidableEq κ] (d : List (κ × α)) (k : κ) : Bool :=
  (dictGet? d k).isSome

/-- Assignment to a Python dictionary: replace the first entry with a matching
key in place, or append a new entry at the end (insertion order preserved). -/
def dictSet [DecidableEq κ] : List (κ × α) → κ → α → List (κ × α)
  | [], k, v => [(k, v)]
  | (k', v') :: rest, k, v =>
      if k' = k then (k, v) :: rest else (k', v') :: dictSet rest k v

/-- Inner adjacency dictionary of a single node: neighbour label to weight. -/
abbrev InnerAdj : Type := List (String × Int)

/-- Adjacency structure of the model: Python dict of dicts. -/
abbrev Adjacency : Type := List (String × InnerAdj)

/-- State of GraphModel (src/final.py, lines 7-30): the adjacency matrix. -/
structure GraphModel where
  adjacency_matrix : Adjacency
deriving DecidableEq

/-- Guard used by add_edge: if the key is absent from the dictionary, bind it
to a fresh empty dictionary (lines 13-16 of src/final.py). -/
def ensureKey (m : Adjacency) (k : String) : Adjacency :=
  if dictContains m k then m else dictSet m k []

/-- GraphModel.add_edge (lines 12-19), as a state-passing function: ensure both
keys exist, then write the weight in both directions, reading each inner
dictionary at the moment it is written (which also models the aliasing that
occurs in Python when city1 = city2). -/
def GraphModel.add_edge (g : GraphModel) (city1 city2 : String) (distance : Int) :
    GraphModel :=
  let m1 := ensureKey g.adjacency_matrix city1
  let m2 := ensureKey m1 city2
  let m3 := dictSet m2 city1 (dictSet ((dictGet? m2 city1).getD []) city2 distance)
  let m4 := dictSet m3 city2 (dictSet ((dictGet? m3 city2).getD []) city1 distance)
  ⟨m4⟩

/-- GraphModel.reset (lines 21-22): replace the adjacency matrix by an empty one. -/
def GraphModel.reset (_g : GraphModel) : GraphModel := ⟨[]⟩

/-- Lookup adjacency_matrix[u][v] in the model. -/
def GraphModel.edgeWeight (g : GraphModel) (u v : String) : Option Int :=
  (dictGet? g.adjacency_matrix u).bind (fun inner => dictGet? inner v)

/-- Snapshot of the networkx graph built by get_graph: the node list in
first-seen order, plus the weight dictionary keyed by ordered node pairs
(networkx records an undirected edge so that both directed lookups see the
same weight; the embedding stores both directed entries explicitly). -/
structure NXGraph where
  nodeList : List String
  wts : List ((String × String) × Int)
deriving DecidableEq

/-- networkx Graph.add_edge(u, v, weight): register the endpoints in
first-seen order and record the weight for both directed lookups,
overwriting any previous weight of the pair. -/
def NXGraph.addEdge (G : NXGraph) (u v : String) (w : Int) : NXGraph :=
  let ns1 := if u ∈ G.nodeList then G.nodeList else G.nodeList ++ [u]
  let ns2 := if v ∈ ns1 then ns1 else ns1 ++ [v]
  ⟨ns2, dictSet (dictSet G.wts (u, v) w) (v, u) w⟩

/-- Edge lookup G[u][v]; a none result models a raised KeyError. -/
def NXGraph.weight? (G : NXGraph) (u v : String) : Option Int :=
  dictGet? G.wts (u, v)

/-- GraphModel.get_graph (lines 24-30): iterate the adjacency matrix in
insertion order and add every recorded directed entry to a fresh graph. -/
def GraphModel.get_graph (g : GraphModel) : NXGraph :=
  g.adjacency_matrix.foldl
    (fun G entry => entry.2.foldl (fun G2 nb => G2.addEdge entry.1 nb.1 nb.2) G)
    ⟨[], []⟩

/-- Ways to pick one element of a list together with the remaining elements,
in list order; this is the branching structure of itertools.permutations. -/
def selections : List α → List (α × List α)
  | [] => []
  | x :: xs => (x, xs) :: (selections xs).map (fun p => (p.1, x :: p.2))

/-- Fuelled enumeration of all permutations of a list, emitting them in the
order used by itertools.permutations (lexicographic in input positions). -/
def permsAux : Nat → List α → List (List α)
  | 0, _ => [[]]
  | n + 1, l => (selections l).flatMap (fun p => (permsAux n p.2).map (fun q => p.1 :: q))

/-- All permutations of a list in the emission order of itertools.permutations. -/
def permsL (l : List α) : List (List α) := permsAux l.length l

/-- Sum of the weights of consecutive pairs of a route (the for-loop of
lines 48-49); none models the KeyError raised at the first missing edge. -/
def consecCost (G : NXGraph) : List String → Option Int
  | [] => some 0
  | [_] => some 0
  | a :: b :: rest => do
      let w ← G.weight? a b
      let c ← consecCost G (b :: rest)
      pure (w + c)

/-- Cost of the closed candidate cycle [start] + p: the consecutive weights of
the open route followed by the closing edge from its last entry back to
start (lines 46-51; the last entry of [start] + p is p.getLastD start). -/
def cycleCost (G : NXGraph) (start : String) (p : List String) : Option Int := do
  let c ← consecCost G (start :: p)
  let w ← G.weight? (p.getLastD start) start
  pure (c + w)

/-- Failure identities of a calculate_tsp_route call. The first three are the
behaviours of the code in src/final.py: startMissing is the returned pair
(None, error message) of line 40, keyError is the uncaught KeyError raised by
a missing edge lookup in lines 49-51, and noRoute is the returned pair
(None, float inf) when no permutation exists, which is unreachable. The last
two constructors are the names EmptyGraphError and IncompleteGraphError of
the specification's error taxonomy; the code never produces them, and they
are included only so that statements about them can be written down. -/
inductive SolveErr where
  | startMissing
  | keyError
  | noRoute
  | emptyGraph
  | incompleteGraph
deriving DecidableEq

/-- Loop of lines 45-55: walk the permutation list, computing the cost of each
candidate cycle and keeping the first candidate of strictly minimal cost;
a missing edge aborts the whole call with a KeyError. -/
def solveFold (G : NXGraph) (start : String) :
    List (List String) → Option (List String × Int) → Except SolveErr (Option (List String × Int))
  | [], best => .ok best
  | p :: ps, best =>
    match cycleCost G start p with
    | none => .error .keyError
    | some d =>
      match best with
      | none => solveFold G start ps (some (start :: p, d))
      | some (r, m) =>
        if d < m then solveFold G start ps (some (start :: p, d))
        else solveFold G start ps (some (r, m))

/-- TSPSolver.calculate_tsp_route (lines 35-57). The snapshot g.get_graph is
pure, so reading it repeatedly here equals the single read of line 37. If the
start city is not a node, the code returns (None, error message); otherwise it
enumerates the permutations of the other nodes in itertools order and returns
the best route with its cost. -/
def TSPSolver.calculate_tsp_route (g : GraphModel) (start_city : String) :
    Except SolveErr (List String × Int) :=
  if start_city ∈ g.get_graph.nodeList then
    match solveFold g.get_graph start_city
        (permsL (g.get_graph.nodeList.filter (fun n => n ≠ start_city))) none with
    | .error e => .error e
    | .ok none => .error .noRoute
    | .ok (some (r, d)) => .ok (r, d)
  else .error .startMissing

/-- State-passing wrapper for a solve call. The source method reads
graph_model only through get_graph (line 37) and contains no write to it, so
the model component of the call's outcome is the model it was given; the
wrapper makes that frame fact statable. -/
def TSPSolver.solveCall (g : GraphModel) (start_city : String) :
    Except SolveErr (List String × Int) × GraphModel :=
  (TSPSolver.calculate_tsp_route g start_city, g)

/-- Validation failures of Application.add_edge (lines 129-132). -/
inductive ValueErrorKind where
  | sameCities
  | negativeDistance
deriving DecidableEq

/-- Application.add_edge (lines 122-139) after integer parsing, as a
state-passing function: reject equal cities or a negative distance with a
ValueError and leave the model untouched, otherwise delegate to
GraphModel.add_edge. -/
def Application.validated_add_edge (g : GraphModel) (city1 city2 : String)
    (distance : Int) : GraphModel × Option ValueErrorKind :=
  if city1 = city2 then (g, some .sameCities)
  else if distance < 0 then (g, some .negativeDistance)
  else (g.add_edge city1 city2 distance, none)

/-- Graph states reachable from a fresh GraphModel by any sequence of
add_edge and reset calls. -/
inductive Reachable : GraphModel → Prop
  | empty : Reachable ⟨[]⟩
  | add (g : GraphModel) (u v : String) (w : Int) :
      Reachable g → Reachable (g.add_edge u v w)
  | clear (g : GraphModel) : Reachable g → Reachable (GraphModel.reset g)







theorem dictGet?_set_same [DecidableEq κ] (d : List (κ × α)) (k : κ) (v : α) :
    dictGet? (dictSet d k v) k = some v := by
  induction d with
  | nil => simp [dictSet, dictGet?]
  | cons hd tl ih =>
    obtain ⟨a, b⟩ := hd
    by_cases ha : a = k
    · subst ha; simp [dictSet, dictGet?]
    · simp [dictSet, dictGet?, ha, ih]

theorem dictGet?_set_other [DecidableEq κ] (d : List (κ × α)) (k k' : κ) (v : α)
    (h : k' ≠ k) : dictGet? (dictSet d k v) k' = dictGet? d k' := by
  induction d with
  | nil => simp [dictSet, dictGet?, Ne.symm h]
  | cons hd tl ih =>
    obtain ⟨a, b⟩ := hd
    by_cases ha : a = k
    · subst ha; simp [dictSet, dictGet?, Ne.symm h]
    · by_cases ha' : a = k'
      · subst ha'; simp [dictSet, dictGet?, ha]
      · simp [dictSet, dictGet?, ha, ha', ih]

theorem dictSet_self [DecidableEq κ] (d : List (κ × α)) (k : κ) (v : α)
    (h : dictGet? d k = some v) : dictSet d k v = d := by
  induction d with
  | nil => simp [dictGet?] at h
  | cons hd tl ih =>
    obtain ⟨a, b⟩ := hd
    by_cases ha : a = k
    · subst ha
      simp [dictGet?] at h
      simp [dictSet, h]
    · simp only [dictGet?, if_neg ha] at h
      simp [dictSet, ha, ih h]

theorem dictGet?_getD_nil [DecidableEq κ] (o : Option (List (κ × α))) (k : κ) :
    dictGet? (o.getD []) k = o.bind (fun d => dictGet? d k) := by
  cases o <;> rfl

theorem dictGet?_perm [DecidableEq κ] {d1 d2 : List (κ × α)} (h : d1.Perm d2)
    (hnd : (d1.map Prod.fst).Nodup) (k : κ) : dictGet? d1 k = dictGet? d2 k := by
  induction h with
  | nil => rfl
  | cons x h ih =>
    obtain ⟨a, b⟩ := x
    simp only [List.map_cons, List.nodup_cons] at hnd
    by_cases ha : a = k
    · subst ha; simp [dictGet?]
    · simp [dictGet?, ha, ih hnd.2]
  | swap x y l =>
    obtain ⟨a, b⟩ := x
    obtain ⟨c, e⟩ := y
    simp only [List.map_cons, List.nodup_cons, List.mem_cons] at hnd
    have hca : c ≠ a := fun hh => hnd.1 (Or.inl hh)
    by_cases hc : c = k
    · subst hc; simp [dictGet?, Ne.symm hca]
    · by_cases hA : a = k
      · subst hA; simp [dictGet?, hc, hca]
      · simp [dictGet?, hc, hA]
  | trans h1 h2 ih1 ih2 =>
    exact (ih1 hnd).trans (ih2 ((h1.map Prod.fst).nodup hnd))

theorem dictGet?_ensureKey_self (m : Adjacency) (k : String) :
    dictGet? (ensureKey m k) k = some ((dictGet? m k).getD []) := by
  unfold ensureKey dictContains
  cases h : dictGet? m k with
  | none => simp [h, dictGet?_set_same]
  | some inner => simp [h]

theorem dictGet?_ensureKey_other (m : Adjacency) (k k' : String) (h : k' ≠ k) :
    dictGet? (ensureKey m k) k' = dictGet? m k' := by
  unfold ensureKey
  split
  · rfl
  · exact dictGet?_set_other m k k' [] h

theorem edgeWeight_add_edge (g : GraphModel) (u v u' v' : String) (w : Int) :
    (g.add_edge u v w).edgeWeight u' v' =
      if (u' = u ∧ v' = v) ∨ (u' = v ∧ v' = u) then some w
      else g.edgeWeight u' v' := by
  simp only [GraphModel.add_edge, GraphModel.edgeWeight]
  by_cases h1 : u' = v
  · subst h1
    rw [dictGet?_set_same]
    simp only [Option.some_bind]
    by_cases h2 : v' = u
    · subst h2
      rw [dictGet?_set_same]
      simp
    · rw [dictGet?_set_other _ _ _ _ h2, dictGet?_getD_nil]
      by_cases h3 : u' = u
      · subst h3
        rw [dictGet?_set_same]
        simp only [Option.some_bind]
        rw [dictGet?_set_other _ _ _ _ h2, dictGet?_getD_nil,
          dictGet?_ensureKey_self]
        simp only [Option.some_bind, dictGet?_getD_nil, dictGet?_ensureKey_self]
        simp [h2]
      · rw [dictGet?_set_other _ _ _ _ (Ne.symm (fun hh => h3 hh.symm))]
        rw [dictGet?_ensureKey_self]
        simp only [Option.some_bind, dictGet?_getD_nil]
        rw [dictGet?_ensureKey_other _ _ _ h3]
        simp [h2, h3]
  · rw [dictGet?_set_other _ _ _ _ h1]
    by_cases h4 : u' = u
    · subst h4
      rw [dictGet?_set_same]
      simp only [Option.some_bind]
      by_cases h5 : v' = v
      · subst h5
        rw [dictGet?_set_same]
        simp
      · rw [dictGet?_set_other _ _ _ _ h5, dictGet?_getD_nil,
          dictGet?_ensureKey_other _ _ _ h1, dictGet?_ensureKey_self]
        simp only [Option.some_bind, dictGet?_getD_nil]
        simp [h1, h5]
    · rw [dictGet?_set_other _ _ _ _ h4, dictGet?_ensureKey_other _ _ _ h1,
        dictGet?_ensureKey_other _ _ _ h4]
      simp [h1, h4]

theorem selections_perm {l : List α} {x : α} {r : List α}
    (h : (x, r) ∈ selections l) : (x :: r).Perm l := by
  induction l generalizing x r with
  | nil => simp [selections] at h
  | cons y ys ih =>
    simp only [selections, List.mem_cons, List.mem_map, Prod.mk.injEq] at h
    rcases h with ⟨rfl, rfl⟩ | ⟨p, hp, hp1, hp2⟩
    · exact List.Perm.refl _
    · obtain ⟨a, s⟩ := p
      obtain rfl := hp1
      rw [← hp2]
      exact (List.Perm.swap y a s).trans ((ih hp).cons y)

theorem selections_of_mem {l : List α} {x : α} (h : x ∈ l) :
    ∃ r, (x, r) ∈ selections l := by
  induction l with
  | nil => simp at h
  | cons y ys ih =>
    rcases List.mem_cons.mp h with rfl | h'
    · exact ⟨ys, List.mem_cons_self _ _⟩
    · obtain ⟨r, hr⟩ := ih h'
      exact ⟨y :: r, List.mem_cons_of_mem _ (List.mem_map.mpr ⟨(x, r), hr, rfl⟩)⟩

theorem permsAux_sound : ∀ (n : Nat) (l p : List α),
    n = l.length → p ∈ permsAux n l → p.Perm l := by
  intro n
  induction n with
  | zero =>
    intro l p hl hp
    obtain rfl : l = [] := List.length_eq_zero.mp hl.symm
    simp only [permsAux, List.mem_singleton] at hp
    simp [hp]
  | succ n ih =>
    intro l p hl hp
    simp only [permsAux, List.mem_flatMap, List.mem_map] at hp
    obtain ⟨⟨x, r⟩, hsel, q, hq, rfl⟩ := hp
    have hperm := selections_perm hsel
    have hlen : n = r.length := by
      have := hperm.length_eq
      simp only [List.length_cons] at this
      omega
    exact ((ih r q hlen hq).cons x).trans hperm

theorem permsAux_complete : ∀ (n : Nat) (l p : List α),
    n = l.length → p.Perm l → p ∈ permsAux n l := by
  intro n
  induction n with
  | zero =>
    intro l p hl hp
    obtain rfl : l = [] := List.length_eq_zero.mp hl.symm
    simp [permsAux, hp.eq_nil]
  | succ n ih =>
    intro l p hl hp
    cases p with
    | nil =>
      have := hp.length_eq
      simp at this
      omega
    | cons x q =>
      have hx : x ∈ l := hp.mem_iff.mp (List.mem_cons_self x q)
      obtain ⟨r, hr⟩ := selections_of_mem hx
      have hxr := selections_perm hr
      have hq : q.Perm r := (List.perm_cons x).mp (hp.trans hxr.symm)
      have hlen : n = r.length := by
        have := hxr.length_eq
        simp only [List.length_cons] at this
        omega
      simp only [permsAux, List.mem_flatMap]
      exact ⟨(x, r), hr, List.mem_map.mpr ⟨q, ih r q hlen hq, rfl⟩⟩

theorem permsL_sound {l p : List α} (h : p ∈ permsL l) : p.Perm l :=
  permsAux_sound l.length l p rfl h

theorem permsL_complete {l p : List α} (h : p.Perm l) : p ∈ permsL l :=
  permsAux_complete l.length l p rfl h

theorem solveFold_err (G : NXGraph) (s : String) :
    ∀ (ps : List (List String)) (init : Option (List String × Int)),
    (∃ p ∈ ps, cycleCost G s p = none) →
    solveFold G s ps init = .error .keyError := by
  intro ps
  induction ps with
  | nil => intro init h; simp at h
  | cons p0 ps ih =>
    intro init h
    obtain ⟨p, hp, hc⟩ := h
    rcases List.mem_cons.mp hp with rfl | hp'
    · simp [solveFold, hc]
    · cases h0 : cycleCost G s p0 with
      | none => simp [solveFold, h0]
      | some d =>
        cases init with
        | none =>
          simp only [solveFold, h0]
          exact ih _ ⟨p, hp', hc⟩
        | some b =>
          obtain ⟨r, m⟩ := b
          simp only [solveFold, h0]
          split
          · exact ih _ ⟨p, hp', hc⟩
          · exact ih _ ⟨p, hp', hc⟩

theorem solveFold_isOk (G : NXGraph) (s : String) :
    ∀ (ps : List (List String)) (init : Option (List String × Int)),
    (∀ p ∈ ps, cycleCost G s p ≠ none) →
    ∃ b, solveFold G s ps init = .ok b := by
  intro ps
  induction ps with
  | nil => intro init _; exact ⟨init, rfl⟩
  | cons p0 ps ih =>
    intro init h
    cases h0 : cycleCost G s p0 with
    | none => exact absurd h0 (h p0 (List.mem_cons_self _ _))
    | some d =>
      have h' : ∀ p ∈ ps, cycleCost G s p ≠ none :=
        fun p hp => h p (List.mem_cons_of_mem _ hp)
      cases init with
      | none => simpa [solveFold, h0] using ih (some (s :: p0, d)) h'
      | some b =>
        obtain ⟨r, m⟩ := b
        by_cases hlt : d < m
        · simpa [solveFold, h0, hlt] using ih (some (s :: p0, d)) h'
        · simpa [solveFold, h0, hlt] using ih (some (r, m)) h'

theorem solveFold_ok_spec (G : NXGraph) (s : String) :
    ∀ (ps : List (List String)) (init b : Option (List String × Int)),
    solveFold G s ps init = .ok b →
    ((b = init ∨ ∃ p ∈ ps, ∃ d, cycleCost G s p = some d ∧ b = some (s :: p, d)) ∧
     (b = none → init = none) ∧
     (ps ≠ [] → b ≠ none) ∧
     (∀ r c, b = some (r, c) →
       (∀ p ∈ ps, ∀ d, cycleCost G s p = some d → c ≤ d) ∧
       (∀ r0 c0, init = some (r0, c0) → c ≤ c0))) := by
  intro ps
  induction ps with
  | nil =>
    intro init b hb
    simp only [solveFold, Except.ok.injEq] at hb
    subst hb
    refine ⟨Or.inl rfl, fun h => h, fun h => absurd rfl h, fun r c hc => ⟨by simp, ?_⟩⟩
    intro r0 c0 h
    rw [hc] at h
    simp only [Option.some.injEq, Prod.mk.injEq] at h
    obtain ⟨rfl, rfl⟩ := h
    exact le_refl _
  | cons p0 ps ih =>
    intro init b hb
    cases h0 : cycleCost G s p0 with
    | none => simp [solveFold, h0] at hb
    | some d =>
      cases init with
      | none =>
        have hb' : solveFold G s ps (some (s :: p0, d)) = .ok b := by
          simpa [solveFold, h0] using hb
        obtain ⟨hprov, hbn, _, hmin⟩ := ih (some (s :: p0, d)) b hb'
        refine ⟨?_, ?_, ?_, ?_⟩
        · rcases hprov with rfl | ⟨p, hp, d', hd', rfl⟩
          · exact Or.inr ⟨p0, List.mem_cons_self _ _, d, h0, rfl⟩
          · exact Or.inr ⟨p, List.mem_cons_of_mem _ hp, d', hd', rfl⟩
        · intro h; exact absurd (hbn h) (by simp)
        · intro _ h; exact absurd (hbn h) (by simp)
        · intro r c hc
          obtain ⟨hall, hinit⟩ := hmin r c hc
          refine ⟨?_, ?_⟩
          · intro p hp d' hd'
            rcases List.mem_cons.mp hp with rfl | hp'
            · rw [h0] at hd'
              obtain rfl := Option.some.inj hd'
              exact hinit _ _ rfl
            · exact hall p hp' d' hd'
          · intro r0 c0 h
            exact absurd h (by simp)
      | some b0 =>
        obtain ⟨r1, m⟩ := b0
        by_cases hlt : d < m
        · have hb' : solveFold G s ps (some (s :: p0, d)) = .ok b := by
            simpa [solveFold, h0, hlt] using hb
          obtain ⟨hprov, hbn, _, hmin⟩ := ih (some (s :: p0, d)) b hb'
          refine ⟨?_, ?_, ?_, ?_⟩
          · rcases hprov with rfl | ⟨p, hp, d', hd', rfl⟩
            · exact Or.inr ⟨p0, List.mem_cons_self _ _, d, h0, rfl⟩
            · exact Or.inr ⟨p, List.mem_cons_of_mem _ hp, d', hd', rfl⟩
          · intro h; exact absurd (hbn h) (by simp)
          · intro _ h; exact absurd (hbn h) (by simp)
          · intro r c hc
            obtain ⟨hall, hinit⟩ := hmin r c hc
            have hcd : c ≤ d := hinit _ _ rfl
            refine ⟨?_, ?_⟩
            · intro p hp d' hd'
              rcases List.mem_cons.mp hp with rfl | hp'
              · rw [h0] at hd'
                obtain rfl := Option.some.inj hd'
                exact hcd
              · exact hall p hp' d' hd'
            · intro r0 c0 h
              simp only [Option.some.injEq, Prod.mk.injEq] at h
              obtain ⟨rfl, rfl⟩ := h
              exact le_trans hcd (le_of_lt hlt)
        · have hb' : solveFold G s ps (some (r1, m)) = .ok b := by
            simpa [solveFold, h0, hlt] using hb
          obtain ⟨hprov, hbn, _, hmin⟩ := ih (some (r1, m)) b hb'
          refine ⟨?_, ?_, ?_, ?_⟩
          · rcases hprov with rfl | ⟨p, hp, d', hd', rfl⟩
            · exact Or.inl rfl
            · exact Or.inr ⟨p, List.mem_cons_of_mem _ hp, d', hd', rfl⟩
          · intro h; exact absurd (hbn h) (by simp)
          · intro _ h; exact absurd (hbn h) (by simp)
          · intro r c hc
            obtain ⟨hall, hinit⟩ := hmin r c hc
            have hcm : c ≤ m := hinit _ _ rfl
            refine ⟨?_, ?_⟩
            · intro p hp d' hd'
              rcases List.mem_cons.mp hp with rfl | hp'
              · rw [h0] at hd'
                obtain rfl := Option.some.inj hd'
                exact le_trans hcm (not_lt.mp hlt)
              · exact hall p hp' d' hd'
            · intro r0 c0 h
              simp only [Option.some.injEq, Prod.mk.injEq] at h
              obtain ⟨rfl, rfl⟩ := h
              exact hcm

theorem consecCost_congr {G1 G2 : NXGraph}
    (hw : ∀ u v, G1.weight? u v = G2.weight? u v) :
    ∀ l, consecCost G1 l = consecCost G2 l := by
  intro l
  induction l with
  | nil => rfl
  | cons a t ih =>
    cases t with
    | nil => rfl
    | cons b t' =>
      simp only [consecCost, hw]
      rw [ih]

theorem cycleCost_congr {G1 G2 : NXGraph}
    (hw : ∀ u v, G1.weight? u v = G2.weight? u v) (s : String) (p : List String) :
    cycleCost G1 s p = cycleCost G2 s p := by
  simp only [cycleCost, consecCost_congr hw, hw]

theorem addEdge_nodeList_nodup (G : NXGraph) (u v : String) (w : Int)
    (h : G.nodeList.Nodup) : (G.addEdge u v w).nodeList.Nodup := by
  have step : ∀ (ns : List String) (x : String), ns.Nodup →
      (if x ∈ ns then ns else ns ++ [x]).Nodup := by
    intro ns x hns
    split
    · exact hns
    · next hx =>
      refine List.Nodup.append hns (List.nodup_singleton x) ?_
      intro a ha hax
      simp only [List.mem_singleton] at hax
      exact hx (hax ▸ ha)
  exact step _ v (step _ u h)

theorem get_graph_nodeList_nodup (g : GraphModel) : g.get_graph.nodeList.Nodup := by
  unfold GraphModel.get_graph
  have inner : ∀ (a : String) (l : InnerAdj) (G : NXGraph), G.nodeList.Nodup →
      ((l.foldl (fun G2 nb => G2.addEdge a nb.1 nb.2) G).nodeList.Nodup) := by
    intro a l
    induction l with
    | nil => intro G h; exact h
    | cons nb t ih => intro G h; exact ih _ (addEdge_nodeList_nodup _ _ _ _ h)
  have outer : ∀ (m : Adjacency) (G : NXGraph), G.nodeList.Nodup →
      ((m.foldl (fun G entry =>
          entry.2.foldl (fun G2 nb => G2.addEdge entry.1 nb.1 nb.2) G) G).nodeList.Nodup) := by
    intro m
    induction m with
    | nil => intro G h; exact h
    | cons e t ih => intro G h; exact ih _ (inner e.1 e.2 G h)
  exact outer _ _ List.nodup_nil

theorem perm_cons_filter_ne {l : List String} {s : String}
    (hnd : l.Nodup) (hs : s ∈ l) :
    l.Perm (s :: l.filter (fun n => n ≠ s)) := by
  induction l with
  | nil => simp at hs
  | cons x t ih =>
    obtain ⟨hxt, hnd'⟩ := List.nodup_cons.mp hnd
    rcases List.mem_cons.mp hs with rfl | hs'
    · have hfilter : List.filter (fun n => n ≠ s) (s :: t) = t := by
        rw [List.filter_cons_of_neg (by simp)]
        refine List.filter_eq_self.mpr ?_
        intro a ha
        simp only [decide_eq_true_eq]
        exact fun h => hxt (h ▸ ha)
      rw [hfilter]
    · have hx : x ≠ s := fun h => hxt (h ▸ hs')
      have hstep := ih hnd' hs'
      rw [List.filter_cons_of_pos (by simpa using hx)]
      exact (hstep.cons x).trans (List.Perm.swap s x _)

theorem getLastD_mem_of_ne_nil : ∀ {l : List α} (d : α), l ≠ [] → l.getLastD d ∈ l := by
  intro l
  induction l with
  | nil => intro d h; exact absurd rfl h
  | cons b t ih =>
    intro d _
    cases ht : t with
    | nil => simp [List.getLastD]
    | cons c t' =>
      have := ih b (by simp [ht])
      rw [ht] at this
      exact List.mem_cons_of_mem b this

theorem consecCost_isSome (G : NXGraph) (nodes : List String)
    (hc : ∀ u ∈ nodes, ∀ v ∈ nodes, u ≠ v → (G.weight? u v).isSome) :
    ∀ l, l.Nodup → (∀ x ∈ l, x ∈ nodes) → (consecCost G l).isSome := by
  intro l
  induction l with
  | nil => intro _ _; simp [consecCost]
  | cons a t ih =>
    intro hnd hmem
    cases t with
    | nil => simp [consecCost]
    | cons b t' =>
      have hsplit := List.nodup_cons.mp hnd
      have hab : a ≠ b := fun h => hsplit.1 (h ▸ List.mem_cons_self b t')
      have ha : a ∈ nodes := hmem a (List.mem_cons_self _ _)
      have hb : b ∈ nodes := hmem b (List.mem_cons_of_mem _ (List.mem_cons_self _ _))
      obtain ⟨w, hw⟩ := Option.isSome_iff_exists.mp (hc a ha b hb hab)
      obtain ⟨c, hcc⟩ := Option.isSome_iff_exists.mp
        (ih hsplit.2 (fun x hx => hmem x (List.mem_cons_of_mem _ hx)))
      simp [consecCost, hw, hcc]

theorem cycleCost_isSome_of_complete (G : NXGraph) (s : String)
    (hnd : G.nodeList.Nodup) (hs : s ∈ G.nodeList) (h2 : 2 ≤ G.nodeList.length)
    (hc : ∀ u ∈ G.nodeList, ∀ v ∈ G.nodeList, u ≠ v → (G.weight? u v).isSome)
    {p : List String} (hp : p.Perm (G.nodeList.filter (fun n => n ≠ s))) :
    (cycleCost G s p).isSome := by
  have hrest_nd : (G.nodeList.filter (fun n => n ≠ s)).Nodup := hnd.filter _
  have hp_nd : p.Nodup := hp.symm.nodup hrest_nd
  have hp_mem : ∀ x ∈ p, x ∈ G.nodeList ∧ x ≠ s := by
    intro x hx
    have := List.mem_filter.mp (hp.mem_iff.mp hx)
    exact ⟨this.1, by simpa using this.2⟩
  have hs_not : s ∉ p := fun h => (hp_mem s h).2 rfl
  have hlen : G.nodeList.length = (G.nodeList.filter (fun n => n ≠ s)).length + 1 :=
    (perm_cons_filter_ne hnd hs).length_eq
  have hp_ne : p ≠ [] := by
    intro h
    subst h
    have h0 := hp.length_eq
    simp only [List.length_nil] at h0
    omega
  have hcons : (consecCost G (s :: p)).isSome := by
    refine consecCost_isSome G G.nodeList hc (s :: p) (List.nodup_cons.mpr ⟨hs_not, hp_nd⟩) ?_
    intro x hx
    rcases List.mem_cons.mp hx with rfl | hx'
    · exact hs
    · exact (hp_mem x hx').1
  have hlast : p.getLastD s ∈ p := getLastD_mem_of_ne_nil s hp_ne
  have hclose : (G.weight? (p.getLastD s) s).isSome :=
    hc _ (hp_mem _ hlast).1 s hs (hp_mem _ hlast).2
  obtain ⟨c, hcc⟩ := Option.isSome_iff_exists.mp hcons
  obtain ⟨w, hw⟩ := Option.isSome_iff_exists.mp hclose
  rw [List.getLastD_eq_getLast?] at hw
  simp [cycleCost, hcc, hw]

/-- C5: in every graph state reachable by add_edge and reset calls, the
adjacency structure is symmetric: whenever (u, v) is recorded with weight w,
(v, u) is recorded with the same weight, including after overwrites. -/
theorem reachable_symmetric {g : GraphModel} (hg : Reachable g) :
    ∀ u v w, g.edgeWeight u v = some w → g.edgeWeight v u = some w := by
  induction hg with
  | empty =>
    intro u v w h
    simp [GraphModel.edgeWeight, dictGet?] at h
  | add g' a b wt _ ih =>
    intro u v w h
    rw [edgeWeight_add_edge] at h ⊢
    by_cases hcond : (u = a ∧ v = b) ∨ (u = b ∧ v = a)
    · rw [if_pos hcond] at h
      rw [if_pos (by tauto)]
      exact h
    · rw [if_neg hcond] at h
      rw [if_neg (by tauto)]
      exact ih u v w h
  | clear g' _ _ =>
    intro u v w h
    simp [GraphModel.reset, GraphModel.edgeWeight, dictGet?] at h

/-- C10: GraphModel.add_edge is idempotent: inserting the same edge with the
same weight twice yields exactly the state obtained by inserting it once. -/
theorem add_edge_idempotent (g : GraphModel) (u v : String) (w : Int) :
    (g.add_edge u v w).add_edge u v w = g.add_edge u v w := by
  have huv : (g.add_edge u v w).edgeWeight u v = some w := by
    rw [edgeWeight_add_edge]
    exact if_pos (Or.inl ⟨rfl, rfl⟩)
  have hvu : (g.add_edge u v w).edgeWeight v u = some w := by
    rw [edgeWeight_add_edge]
    exact if_pos (Or.inr ⟨rfl, rfl⟩)
  obtain ⟨iu, hiu, hiuv⟩ :
      ∃ iu, dictGet? (g.add_edge u v w).adjacency_matrix u = some iu ∧
        dictGet? iu v = some w := by
    unfold GraphModel.edgeWeight at huv
    cases hg : dictGet? (g.add_edge u v w).adjacency_matrix u with
    | none => rw [hg] at huv; simp at huv
    | some iu =>
      rw [hg] at huv
      simp only [Option.some_bind] at huv
      exact ⟨iu, rfl, huv⟩
  obtain ⟨iv, hiv, hivu⟩ :
      ∃ iv, dictGet? (g.add_edge u v w).adjacency_matrix v = some iv ∧
        dictGet? iv u = some w := by
    unfold GraphModel.edgeWeight at hvu
    cases hg : dictGet? (g.add_edge u v w).adjacency_matrix v with
    | none => rw [hg] at hvu; simp at hvu
    | some iv =>
      rw [hg] at hvu
      simp only [Option.some_bind] at hvu
      exact ⟨iv, rfl, hvu⟩
  have main : ∀ M : Adjacency, dictGet? M u = some iu → dictGet? iu v = some w →
      dictGet? M v = some iv → dictGet? iv u = some w →
      GraphModel.add_edge ⟨M⟩ u v w = ⟨M⟩ := by
    intro M h1 h2 h3 h4
    have e1 : ensureKey M u = M := by simp [ensureKey, dictContains, h1]
    have e2 : ensureKey M v = M := by simp [ensureKey, dictContains, h3]
    show GraphModel.mk _ = GraphModel.mk M
    simp only [e1, e2, h1, h3, Option.getD_some, dictSet_self iu v w h2,
      dictSet_self M u iu h1, dictSet_self iv u w h4, dictSet_self M v iv h3]
  exact main (g.add_edge u v w).adjacency_matrix hiu hiuv hiv hivu

/-- C4 (amended): the core GraphModel.add_edge performs no validation; the
checks u distinct from v and w nonnegative live in the Application wrapper,
which rejects bad input with a ValueError leaving the model unchanged and
otherwise inserts or overwrites the two directed entries symmetrically with
no effect on any other entry. -/
theorem validated_add_edge_spec (g : GraphModel) (c1 c2 : String) (d : Int) :
    ((c1 = c2 ∨ d < 0) → (Application.validated_add_edge g c1 c2 d).1 = g ∧
       (Application.validated_add_edge g c1 c2 d).2.isSome) ∧
    (c1 ≠ c2 → 0 ≤ d →
      (Application.validated_add_edge g c1 c2 d).2 = none ∧
      (Application.validated_add_edge g c1 c2 d).1.edgeWeight c1 c2 = some d ∧
      (Application.validated_add_edge g c1 c2 d).1.edgeWeight c2 c1 = some d ∧
      ∀ u v, ¬((u = c1 ∧ v = c2) ∨ (u = c2 ∧ v = c1)) →
        (Application.validated_add_edge g c1 c2 d).1.edgeWeight u v = g.edgeWeight u v) := by
  constructor
  · intro h
    by_cases he : c1 = c2
    · simp [Application.validated_add_edge, he]
    · have hd : d < 0 := h.resolve_left he
      simp [Application.validated_add_edge, he, hd]
  · intro hne hd
    have hni : ¬d < 0 := not_lt.mpr hd
    refine ⟨?_, ?_, ?_, ?_⟩
    · simp [Application.validated_add_edge, hne, hni]
    · simp only [Application.validated_add_edge, if_neg hne, if_neg hni]
      rw [edgeWeight_add_edge]
      exact if_pos (Or.inl ⟨rfl, rfl⟩)
    · simp only [Application.validated_add_edge, if_neg hne, if_neg hni]
      rw [edgeWeight_add_edge]
      exact if_pos (Or.inr ⟨rfl, rfl⟩)
    · intro u v huv
      simp only [Application.validated_add_edge, if_neg hne, if_neg hni]
      rw [edgeWeight_add_edge, if_neg huv]

/-- C9: a solve call leaves the graph model exactly as it was: the source
method only reads the model (through get_graph) and never writes to it. -/
theorem solve_preserves_model (g : GraphModel) (s : String) :
    (TSPSolver.solveCall g s).2 = g := rfl

/-- C6 (amended): after reset the node set is empty, and a solve call on the
reset model fails, for every start node, with the missing-start-city failure
(the code has no EmptyGraphError; the empty node list makes the membership
test of line 39 fail first). -/
theorem reset_then_solve_start_missing (g : GraphModel) :
    (GraphModel.reset g).get_graph.nodeList = [] ∧
    ∀ s, TSPSolver.calculate_tsp_route (GraphModel.reset g) s =
      .error .startMissing := by
  exact ⟨rfl, fun s => rfl⟩

/-- C3 (amended): when some candidate cycle through the start node needs an
edge that is absent, the whole solve call aborts with the uncaught KeyError
(not with a typed IncompleteGraphError): the permutation is not skipped, the
missing edge is not treated as infinite cost, and no route is returned. -/
theorem tsp_keyError_of_missing_edge (g : GraphModel) (s : String) (p : List String)
    (hs : s ∈ g.get_graph.nodeList)
    (hp : p.Perm (g.get_graph.nodeList.filter (fun n => n ≠ s)))
    (hc : cycleCost g.get_graph s p = none) :
    TSPSolver.calculate_tsp_route g s = .error .keyError := by
  unfold TSPSolver.calculate_tsp_route
  rw [if_pos hs, solveFold_err _ _ _ _ ⟨p, permsL_complete hp, hc⟩]

theorem calculate_ok_inv (g : GraphModel) (s : String) (r : List String) (c : Int)
    (h : TSPSolver.calculate_tsp_route g s = .ok (r, c)) :
    s ∈ g.get_graph.nodeList ∧
    ∃ p, p ∈ permsL (g.get_graph.nodeList.filter (fun n => n ≠ s)) ∧
      r = s :: p ∧ cycleCost g.get_graph s p = some c ∧
      ∀ q ∈ permsL (g.get_graph.nodeList.filter (fun n => n ≠ s)),
        ∀ d, cycleCost g.get_graph s q = some d → c ≤ d := by
  unfold TSPSolver.calculate_tsp_route at h
  by_cases hs : s ∈ g.get_graph.nodeList
  · rw [if_pos hs] at h
    cases hfold : solveFold g.get_graph s
        (permsL (g.get_graph.nodeList.filter (fun n => n ≠ s))) none with
    | error e => rw [hfold] at h; simp at h
    | ok b =>
      rw [hfold] at h
      cases b with
      | none => simp at h
      | some rc =>
        obtain ⟨r', c'⟩ := rc
        simp only [Except.ok.injEq, Prod.mk.injEq] at h
        obtain ⟨rfl, rfl⟩ := h
        obtain ⟨hprov, -, -, hmin⟩ := solveFold_ok_spec _ _ _ _ _ hfold
        rcases hprov with habs | ⟨p, hp, d, hd, heq⟩
        · exact absurd habs (by simp)
        · simp only [Option.some.injEq, Prod.mk.injEq] at heq
          obtain ⟨rfl, rfl⟩ := heq
          exact ⟨hs, p, hp, rfl, hd, fun q hq d' hd' => (hmin _ _ rfl).1 q hq d' hd'⟩
  · rw [if_neg hs] at h
    simp at h

/-- C1: on a graph whose snapshot is complete over its node set, with at
least two nodes and the start node present, solve succeeds; the returned
cost is the cost of the returned cycle (consecutive edges plus the closing
edge back to start) and is a lower bound on the cost of every Hamiltonian
cycle through the start node (every permutation of the other nodes). -/
theorem tsp_optimal (g : GraphModel) (s : String)
    (hs : s ∈ g.get_graph.nodeList)
    (h2 : 2 ≤ g.get_graph.nodeList.length)
    (hc : ∀ u ∈ g.get_graph.nodeList, ∀ v ∈ g.get_graph.nodeList, u ≠ v →
      (g.get_graph.weight? u v).isSome) :
    ∃ p c, TSPSolver.calculate_tsp_route g s = .ok (s :: p, c) ∧
      cycleCost g.get_graph s p = some c ∧
      ∀ q, q.Perm (g.get_graph.nodeList.filter (fun n => n ≠ s)) →
        ∀ d, cycleCost g.get_graph s q = some d → c ≤ d := by
  have hnd := get_graph_nodeList_nodup g
  have hall : ∀ p ∈ permsL (g.get_graph.nodeList.filter (fun n => n ≠ s)),
      cycleCost g.get_graph s p ≠ none := by
    intro p hp hnone
    have := cycleCost_isSome_of_complete g.get_graph s hnd hs h2 hc (permsL_sound hp)
    rw [hnone] at this
    simp at this
  obtain ⟨b, hb⟩ := solveFold_isOk g.get_graph s _ none hall
  obtain ⟨hprov, -, hne, hmin⟩ := solveFold_ok_spec g.get_graph s _ none b hb
  have hrest_mem : (g.get_graph.nodeList.filter (fun n => n ≠ s)) ∈
      permsL (g.get_graph.nodeList.filter (fun n => n ≠ s)) :=
    permsL_complete (List.Perm.refl _)
  have hps_ne : permsL (g.get_graph.nodeList.filter (fun n => n ≠ s)) ≠ [] := by
    intro h
    rw [h] at hrest_mem
    simp at hrest_mem
  cases b with
  | none => exact absurd rfl (hne hps_ne)
  | some rc =>
    obtain ⟨r, c⟩ := rc
    rcases hprov with habs | ⟨p, hp, d, hd, heq⟩
    · exact absurd habs (by simp)
    · simp only [Option.some.injEq, Prod.mk.injEq] at heq
      obtain ⟨rfl, rfl⟩ := heq
      refine ⟨p, c, ?_, hd, ?_⟩
      · unfold TSPSolver.calculate_tsp_route
        rw [if_pos hs, hb]
      · intro q hq d' hd'
        exact (hmin _ _ rfl).1 q (permsL_complete hq) d' hd'

/-- C2 (amended): a successful solve returns a route of exactly n entries
(not n+1): the start node followed by a permutation of the remaining n-1
nodes; the closing edge back to start is part of the cost but the start is
not repeated as a final entry. -/
theorem tsp_route_shape (g : GraphModel) (s : String) (r : List String) (c : Int)
    (h : TSPSolver.calculate_tsp_route g s = .ok (r, c)) :
    r.length = g.get_graph.nodeList.length ∧ r.head? = some s ∧
      r.tail.Perm (g.get_graph.nodeList.filter (fun n => n ≠ s)) := by
  obtain ⟨hs, p, hp, rfl, -, -⟩ := calculate_ok_inv g s r c h
  have hperm := permsL_sound hp
  have hnd := get_graph_nodeList_nodup g
  have hlen := (perm_cons_filter_ne hnd hs).length_eq
  refine ⟨?_, rfl, hperm⟩
  simp only [List.length_cons] at hlen ⊢
  have := hperm.length_eq
  omega

/-- C7 (amended): on a graph whose snapshot has the single node a (which then
necessarily carries a self-loop), solve(a) returns the one-entry route [a]
(not [a, a]) with cost equal to the recorded self-loop weight (not 0). -/
theorem single_node_route (g : GraphModel) (a : String) (w : Int)
    (h1 : g.get_graph.nodeList = [a]) (h2 : g.get_graph.weight? a a = some w) :
    TSPSolver.calculate_tsp_route g a = .ok ([a], w) := by
  unfold TSPSolver.calculate_tsp_route
  rw [h1]
  rw [if_pos (List.mem_singleton.mpr rfl)]
  have hfilter : ([a].filter (fun n => n ≠ a)) = [] := by simp
  rw [hfilter]
  have hcost : cycleCost g.get_graph a [] = some w := by
    simp [cycleCost, consecCost, List.getLastD, h2]
  have hperms : permsL ([] : List String) = [[]] := rfl
  rw [hperms]
  simp [solveFold, hcost]

/-- C8 (amended): the minimal cost returned by solve depends only on the
graph content (node set and weight function) and the start node; the route
itself may still depend on the insertion order of edges, because the
non-start nodes are not sorted before permutation, so on ties different
enumeration orders can crown different first-minimal routes. -/
theorem tsp_cost_content_determined (g1 g2 : GraphModel) (s : String)
    (hn : g1.get_graph.nodeList.Perm g2.get_graph.nodeList)
    (hw : ∀ u v, g1.get_graph.weight? u v = g2.get_graph.weight? u v)
    (r1 : List String) (c1 : Int) (r2 : List String) (c2 : Int)
    (h1 : TSPSolver.calculate_tsp_route g1 s = .ok (r1, c1))
    (h2 : TSPSolver.calculate_tsp_route g2 s = .ok (r2, c2)) :
    c1 = c2 := by
  obtain ⟨hs1, p1, hp1, -, hcost1, hmin1⟩ := calculate_ok_inv g1 s r1 c1 h1
  obtain ⟨hs2, p2, hp2, -, hcost2, hmin2⟩ := calculate_ok_inv g2 s r2 c2 h2
  have hrest : (g1.get_graph.nodeList.filter (fun n => n ≠ s)).Perm
      (g2.get_graph.nodeList.filter (fun n => n ≠ s)) := hn.filter _
  have hc21 : cycleCost g1.get_graph s p2 = some c2 := by
    rw [cycleCost_congr hw]
    exact hcost2
  have hc12 : cycleCost g2.get_graph s p1 = some c1 := by
    rw [← cycleCost_congr hw]
    exact hcost1
  have hmem21 : p2 ∈ permsL (g1.get_graph.nodeList.filter (fun n => n ≠ s)) :=
    permsL_complete ((permsL_sound hp2).trans hrest.symm)
  have hmem12 : p1 ∈ permsL (g2.get_graph.nodeList.filter (fun n => n ≠ s)) :=
    permsL_complete ((permsL_sound hp1).trans hrest)
  exact le_antisymm (hmin1 p2 hmem21 c2 hc21) (hmin2 p1 hmem12 c1 hc12)

/-- Complete triangle with three distinct edge weights. -/
def triangleModel : GraphModel :=
  (((GraphModel.mk []).add_edge "A" "B" 10).add_edge "B" "C" 15).add_edge "A" "C" 20

/-- Two nodes joined by one edge of weight 7. -/
def twoNodeModel : GraphModel := (GraphModel.mk []).add_edge "A" "B" 7

/-- Three nodes where the edge between B and C is missing. -/
def pathModel : GraphModel := ((GraphModel.mk []).add_edge "A" "B" 10).add_edge "A" "C" 20

/-- Single node created through the self-loop the core accepts. -/
def selfLoopModel : GraphModel := (GraphModel.mk []).add_edge "A" "A" 5

/-- Unit-weight triangle inserted in one order. -/
def tieModelA : GraphModel :=
  (((GraphModel.mk []).add_edge "A" "B" 1).add_edge "B" "C" 1).add_edge "A" "C" 1

/-- The same unit-weight triangle inserted in another order. -/
def tieModelB : GraphModel :=
  (((GraphModel.mk []).add_edge "A" "C" 1).add_edge "A" "B" 1).add_edge "B" "C" 1

/-- Edge inserted twice with different weights: last write wins. -/
def overwriteModel : GraphModel :=
  ((GraphModel.mk []).add_edge "A" "B" 2).add_edge "A" "B" 9

/-- C1 witness: the hypotheses of tsp_optimal hold on the concrete complete
triangle and solve returns an optimal route there. -/
theorem tsp_optimal_witness :
    ("A" ∈ triangleModel.get_graph.nodeList) ∧
    (2 ≤ triangleModel.get_graph.nodeList.length) ∧
    (∃ p c, TSPSolver.calculate_tsp_route triangleModel "A" = .ok ("A" :: p, c) ∧
      cycleCost triangleModel.get_graph "A" p = some c ∧
      ∀ q, q.Perm (triangleModel.get_graph.nodeList.filter (fun n => n ≠ "A")) →
        ∀ d, cycleCost triangleModel.get_graph "A" q = some d → c ≤ d) :=
  ⟨by decide, by decide,
    tsp_optimal triangleModel "A" (by decide) (by decide) (by decide)⟩

/-- C2 counterexample: the successful solve on the two-node graph returns the
route [A, B]: its length is n = 2 rather than n+1 = 3, and its last entry is
B rather than the start node. -/
theorem tsp_route_length_cex :
    TSPSolver.calculate_tsp_route twoNodeModel "A" = .ok (["A", "B"], 14) ∧
    ¬((["A", "B"] : List String).length = twoNodeModel.get_graph.nodeList.length + 1) ∧
    ¬((["A", "B"] : List String).getLast? = some "A") :=
  ⟨rfl, by decide, by decide⟩

/-- C2 witness: the shape theorem instantiated on the two-node graph. -/
theorem tsp_route_shape_witness :
    (["A", "B"] : List String).length = twoNodeModel.get_graph.nodeList.length ∧
    (["A", "B"] : List String).head? = some "A" ∧
    (["A", "B"] : List String).tail.Perm
      (twoNodeModel.get_graph.nodeList.filter (fun n => n ≠ "A")) :=
  tsp_route_shape twoNodeModel "A" ["A", "B"] 14 rfl

/-- C3 counterexample: with the edge between B and C missing, solve fails
with the KeyError behaviour, which is not the typed IncompleteGraphError the
specification names. -/
theorem tsp_incomplete_cex :
    TSPSolver.calculate_tsp_route pathModel "A" = .error .keyError ∧
    SolveErr.keyError ≠ SolveErr.incompleteGraph :=
  ⟨rfl, by decide⟩

/-- C3 witness: the KeyError theorem instantiated on the concrete incomplete
graph and the candidate permutation [B, C] whose cycle hits the missing edge. -/
theorem tsp_keyError_witness :
    TSPSolver.calculate_tsp_route pathModel "A" = .error .keyError :=
  tsp_keyError_of_missing_edge pathModel "A" ["B", "C"] (by decide) (by decide) rfl

/-- C4 counterexample: the core add_edge accepts a self-loop and a negative
weight without any failure, records them, and changes the graph: no
InvalidEdgeError exists at the core layer. -/
theorem core_add_edge_no_validation_cex :
    ((GraphModel.mk []).add_edge "A" "A" 5 ≠ GraphModel.mk []) ∧
    ((GraphModel.mk []).add_edge "A" "A" 5).edgeWeight "A" "A" = some 5 ∧
    ((GraphModel.mk []).add_edge "A" "B" (-1)).edgeWeight "A" "B" = some (-1) :=
  ⟨by decide, rfl, rfl⟩

/-- C4 witness: the wrapper-level theorem instantiated on a rejected
self-loop and on an accepted ordinary edge. -/
theorem validated_add_edge_witness :
    ((Application.validated_add_edge (GraphModel.mk []) "A" "A" 5).1 = GraphModel.mk [] ∧
      (Application.validated_add_edge (GraphModel.mk []) "A" "A" 5).2.isSome) ∧
    ((Application.validated_add_edge (GraphModel.mk []) "A" "B" 3).2 = none ∧
      (Application.validated_add_edge (GraphModel.mk []) "A" "B" 3).1.edgeWeight "A" "B" = some 3 ∧
      (Application.validated_add_edge (GraphModel.mk []) "A" "B" 3).1.edgeWeight "B" "A" = some 3) :=
  ⟨(validated_add_edge_spec (GraphModel.mk []) "A" "A" 5).1 (Or.inl rfl),
    have h := (validated_add_edge_spec (GraphModel.mk []) "A" "B" 3).2 (by decide) (by decide)
    ⟨h.1, h.2.1, h.2.2.1⟩⟩

/-- C5 witness: the symmetry theorem instantiated on the graph built by a
re-insertion with a different weight: both directions carry the new weight. -/
theorem reachable_symmetric_witness :
    overwriteModel.edgeWeight "A" "B" = some 9 ∧
    overwriteModel.edgeWeight "B" "A" = some 9 :=
  ⟨rfl, reachable_symmetric
    (Reachable.add _ "A" "B" 9 (Reachable.add _ "A" "B" 2 Reachable.empty))
    "A" "B" 9 rfl⟩

/-- C6 counterexample: solving on the freshly reset (empty) graph fails with
the missing-start-city behaviour, which is not the EmptyGraphError the
specification names. -/
theorem reset_solve_error_cex :
    (GraphModel.reset (GraphModel.mk [])).get_graph.nodeList = [] ∧
    TSPSolver.calculate_tsp_route (GraphModel.reset (GraphModel.mk [])) "A" =
      .error .startMissing ∧
    SolveErr.startMissing ≠ SolveErr.emptyGraph :=
  ⟨rfl, rfl, by decide⟩

/-- C7 counterexample: on the single-node graph (with self-loop weight 5)
solve returns the route [A] with cost 5, not the route [A, A] with cost 0. -/
theorem single_node_cex :
    TSPSolver.calculate_tsp_route selfLoopModel "A" = .ok (["A"], 5) ∧
    (["A"] : List String) ≠ ["A", "A"] ∧ (5 : Int) ≠ 0 :=
  ⟨rfl, by decide, by decide⟩

/-- C7 witness: the single-node theorem instantiated on the concrete
self-loop graph. -/
theorem single_node_route_witness :
    TSPSolver.calculate_tsp_route selfLoopModel "A" = .ok (["A"], 5) :=
  single_node_route selfLoopModel "A" 5 rfl rfl

/-- C8 counterexample: two insertion orders that build the same graph content
(node lists and weight stores that are permutations of each other, with
unambiguous keys) make solve return different routes on a cost tie. -/
theorem insertion_order_route_cex :
    tieModelA.get_graph.nodeList.Perm tieModelB.get_graph.nodeList ∧
    tieModelA.get_graph.wts.Perm tieModelB.get_graph.wts ∧
    (tieModelA.get_graph.wts.map Prod.fst).Nodup ∧
    TSPSolver.calculate_tsp_route tieModelA "A" = .ok (["A", "B", "C"], 3) ∧
    TSPSolver.calculate_tsp_route tieModelB "A" = .ok (["A", "C", "B"], 3) ∧
    (["A", "B", "C"] : List String) ≠ ["A", "C", "B"] :=
  ⟨by decide, by decide, by decide, rfl, rfl, by decide⟩

/-- C8 witness: the cost-determinism theorem instantiated on the two
insertion orders of the unit triangle: both runs return cost 3. -/
theorem tsp_cost_content_witness :
    TSPSolver.calculate_tsp_route tieModelA "A" = .ok (["A", "B", "C"], 3) ∧
    TSPSolver.calculate_tsp_route tieModelB "A" = .ok (["A", "C", "B"], 3) ∧
    (3 : Int) = 3 :=
  ⟨rfl, rfl,
    tsp_cost_content_determined tieModelA tieModelB "A" (by decide)
      (fun u v => dictGet?_perm (by decide) (by decide) (u, v))
      ["A", "B", "C"] 3 ["A", "C", "B"] 3 rfl rfl⟩
